import Mathlib

/-!
Shallow embedding of `ragstack_knowledge_store/graph_store.py`:
data model (`Link`, `Node`), serialization, the write path `add_nodes`,
`_nodes_with_ids`, `traversal_search`, `mmr_traversal_search`, and
`_get_adjacent`, together with theorems settling the specification claims.
-/

namespace GraphStore

/-- JSON-representable values (what `json.dumps`/`json.loads` handle). -/
inductive JsonVal where
  | null
  | bool (b : Bool)
  | num (n : Int)
  | str (s : String)
  | arr (xs : List JsonVal)
  | obj (fs : List (String × JsonVal))

/-- A Python metadata value: either JSON-representable, or a Python `set`
of JSON-representable values (modelled with its iteration order). -/
inductive PyMetaVal where
  | js (j : JsonVal)
  | pyset (xs : List JsonVal)

/-- `links.Link`: kind, direction and tag, all strings. -/
structure Link where
  kind : String
  direction : String
  tag : String
deriving DecidableEq, Repr

/-- `Node` dataclass: text, optional id, metadata dict (insertion-ordered
association list), and a set of links (modelled with its iteration order). -/
structure Node where
  text : String
  id : Option String := none
  metadata : List (String × PyMetaVal) := []
  links : List Link := []

/-- Python dict assignment `d[k] = v`: replaces the value in place when the
key is present (dicts preserve insertion order), appends otherwise. -/
def assocSet {κ α : Type} [DecidableEq κ] (l : List (κ × α)) (k : κ) (v : α) : List (κ × α) :=
  match l with
  | [] => [(k, v)]
  | kv :: rest => if kv.1 = k then (k, v) :: rest else kv :: assocSet rest k v

/-- `json.dumps` on a metadata dict.  The JSON text is modelled by the JSON
object itself (`json.dumps`/`json.loads` is an external bijection on JSON
values); a Python set remaining anywhere makes `json.dumps` raise
`TypeError`, modelled as `none`. -/
def encodeMetaVals : List (String × PyMetaVal) → Option (List (String × JsonVal))
  | [] => some []
  | kv :: rest =>
    match kv.2 with
    | .js j => (encodeMetaVals rest).map (fun bs => (kv.1, j) :: bs)
    | .pyset _ => none

/-- `_serialize_metadata`: the copy-and-coerce step for a set under the key
"links", then `json.dumps` (`encodeMetaVals`). -/
def _serialize_metadata (md : List (String × PyMetaVal)) : Option (List (String × JsonVal)) :=
  let md2 := match md.lookup "links" with
    | some (.pyset xs) => assocSet md "links" (.js (.arr xs))
    | _ => md
  encodeMetaVals md2

/-- `_serialize_links`: `json.dumps(list(links), cls=SetAndLinkEncoder)` —
every link of the set becomes one `{kind, direction, tag}` object, in the
set's iteration order; the blob is modelled as that list of links. -/
def _serialize_links (links : List Link) : List Link :=
  links

/-- `_deserialize_metadata`: `json.loads` of the blob; `json.loads` never
produces Python sets, so every value comes back JSON-representable. -/
def _deserialize_metadata (blob : List (String × JsonVal)) : List (String × PyMetaVal) :=
  blob.map (fun kv => (kv.1, .js kv.2))

/-- `_deserialize_links`: rebuilds the set of `Link` values from the JSON
array (a Python set: duplicates collapse). -/
def _deserialize_links (blob : List Link) : List Link :=
  blob.dedup

/-- A passage-table row as selected by `_query_by_id` / `_query_by_embedding`. -/
structure Row where
  content_id : String
  text_content : String
  metadata_blob : List (String × JsonVal)
  links_blob : List Link

/-- `_row_to_node`. -/
def _row_to_node (row : Row) : Node :=
  { id := some row.content_id
    text := row.text_content
    metadata := _deserialize_metadata row.metadata_blob
    links := _deserialize_links row.links_blob }

/-- The per-link conditional of `add_nodes` filling `link_to_tags`:
`if tag.direction == "out" or tag.direction == "bidir": link_to_tags.add((tag.kind, tag.tag))`. -/
def linkToTags (links : List Link) : Finset (String × String) :=
  links.foldl (fun s l =>
    if l.direction = "out" ∨ l.direction = "bidir" then insert (l.kind, l.tag) s else s) ∅

/-- The per-link conditional of `add_nodes` filling `link_from_tags`:
`if tag.direction == "in" or tag.direction == "bidir": link_from_tags.add((tag.kind, tag.tag))`. -/
def linkFromTags (links : List Link) : Finset (String × String) :=
  links.foldl (fun s l =>
    if l.direction = "in" ∨ l.direction = "bidir" then insert (l.kind, l.tag) s else s) ∅

/-- Parameters bound by one `self._insert_passage` execution. -/
structure PassageInsert (E : Type) where
  content_id : String
  text_content : String
  text_embedding : E
  link_to_tags : Finset (String × String)
  metadata_blob : Option (List (String × JsonVal))
  links_blob : List Link

/-- Parameters bound by one `self._insert_tag` execution. -/
structure TargetInsert (E : Type) where
  target_content_id : String
  kind : String
  tag : String
  target_text_embedding : E
deriving DecidableEq

/-- Id materialization in `add_nodes`: `if not node.id:` — Python falsiness
makes both `None` and the empty string receive a generated id.  `fresh i`
abstracts `secrets.token_hex(8)` for the i-th node. -/
def materializeId (fresh : Nat → String) (i : Nat) (n : Node) : String :=
  match n.id with
  | none => fresh i
  | some x => if x = "" then fresh i else x

/-- The body of the `add_nodes` write loop for one node: the passage insert
and the set of target-table inserts (`for kind, value in link_from_tags`,
one insert per element of the set). -/
def addNodeEntry {E : Type} [DecidableEq E] (embedText : String → E) (fresh : Nat → String)
    (i : Nat) (n : Node) : PassageInsert E × Finset (TargetInsert E) :=
  let node_id := materializeId fresh i n
  let emb := embedText n.text
  ( { content_id := node_id
      text_content := n.text
      text_embedding := emb
      link_to_tags := linkToTags n.links
      metadata_blob := _serialize_metadata n.metadata
      links_blob := _serialize_links n.links },
    (linkFromTags n.links).image (fun kt => ⟨node_id, kt.1, kt.2, emb⟩) )

/-- `add_nodes`, iterating the write loop; `embed_texts` is the pure
embedding model applied pointwise (order preserved, one vector per text).
Returns the id list in input order together with the enqueued inserts. -/
def addNodesAux {E : Type} [DecidableEq E] (embedText : String → E) (fresh : Nat → String) :
    Nat → List Node → List String × List (PassageInsert E × Finset (TargetInsert E))
  | _, [] => ([], [])
  | i, n :: rest =>
    let entry := addNodeEntry embedText fresh i n
    let r := addNodesAux embedText fresh (i + 1) rest
    (materializeId fresh i n :: r.1, entry :: r.2)

/-- `add_nodes` on a list of nodes. -/
def addNodes {E : Type} [DecidableEq E] (embedText : String → E) (fresh : Nat → String)
    (nodes : List Node) : List String × List (PassageInsert E × Finset (TargetInsert E)) :=
  addNodesAux embedText fresh 0 nodes

lemma addNodesAux_fst_getElem {E : Type} [DecidableEq E] (embedText : String → E)
    (fresh : Nat → String) :
    ∀ (ns : List Node) (i j : Nat),
      (addNodesAux embedText fresh i ns).1[j]? = ns[j]?.map (materializeId fresh (i + j)) := by
  intro ns
  induction ns with
  | nil => intro i j; simp [addNodesAux]
  | cons n rest ih =>
    intro i j
    cases j with
    | zero => simp [addNodesAux]
    | succ j =>
      simp only [addNodesAux, List.getElem?_cons_succ]
      rw [ih (i + 1) j]
      have : i + 1 + j = i + (j + 1) := by omega
      rw [this]

lemma addNodesAux_snd_getElem {E : Type} [DecidableEq E] (embedText : String → E)
    (fresh : Nat → String) :
    ∀ (ns : List Node) (i j : Nat),
      (addNodesAux embedText fresh i ns).2[j]? = ns[j]?.map (addNodeEntry embedText fresh (i + j)) := by
  intro ns
  induction ns with
  | nil => intro i j; simp [addNodesAux]
  | cons n rest ih =>
    intro i j
    cases j with
    | zero => simp [addNodesAux]
    | succ j =>
      simp only [addNodesAux, List.getElem?_cons_succ]
      rw [ih (i + 1) j]
      have : i + 1 + j = i + (j + 1) := by omega
      rw [this]

lemma mem_linkToTags (ls : List Link) (p : String × String) :
    p ∈ linkToTags ls ↔
      ∃ l ∈ ls, (l.direction = "out" ∨ l.direction = "bidir") ∧ p = (l.kind, l.tag) := by
  have aux : ∀ (ls : List Link) (acc : Finset (String × String)),
      p ∈ ls.foldl (fun s l =>
          if l.direction = "out" ∨ l.direction = "bidir" then insert (l.kind, l.tag) s else s) acc ↔
        p ∈ acc ∨ ∃ l ∈ ls, (l.direction = "out" ∨ l.direction = "bidir") ∧ p = (l.kind, l.tag) := by
    intro ls
    induction ls with
    | nil => intro acc; simp
    | cons hd tl ih =>
      intro acc
      simp only [List.foldl_cons]
      rw [ih]
      by_cases h : hd.direction = "out" ∨ hd.direction = "bidir" <;>
        simp [h, Finset.mem_insert] <;> aesop
  rw [linkToTags, aux]
  simp

lemma mem_linkFromTags (ls : List Link) (p : String × String) :
    p ∈ linkFromTags ls ↔
      ∃ l ∈ ls, (l.direction = "in" ∨ l.direction = "bidir") ∧ p = (l.kind, l.tag) := by
  have aux : ∀ (ls : List Link) (acc : Finset (String × String)),
      p ∈ ls.foldl (fun s l =>
          if l.direction = "in" ∨ l.direction = "bidir" then insert (l.kind, l.tag) s else s) acc ↔
        p ∈ acc ∨ ∃ l ∈ ls, (l.direction = "in" ∨ l.direction = "bidir") ∧ p = (l.kind, l.tag) := by
    intro ls
    induction ls with
    | nil => intro acc; simp
    | cons hd tl ih =>
      intro acc
      simp only [List.foldl_cons]
      rw [ih]
      by_cases h : hd.direction = "in" ∨ hd.direction = "bidir" <;>
        simp [h, Finset.mem_insert] <;> aesop
  rw [linkFromTags, aux]
  simp

/-- Concrete sample inputs used by witnesses. -/
def sampleLinks : List Link :=
  [⟨"hyperlink", "out", "t1"⟩, ⟨"hyperlink", "in", "t2"⟩, ⟨"kw", "bidir", "t3"⟩]

def sampleNode : Node :=
  { text := "alpha", id := some "a", metadata := [], links := sampleLinks }

def sampleEmbed : String → Nat :=
  fun _ => 0

def sampleFresh : Nat → String :=
  fun _ => "generated"

/-- C1: for every node passed to `add_nodes`, the `link_to_tags` value written
with its passage row equals exactly the set
of pairs (L.kind, L.tag) over the links L of the node whose direction is
out or bidir; no link of any other direction contributes anything. -/
theorem claim_C1_link_to_tags {E : Type} [DecidableEq E] (embedText : String → E)
    (fresh : Nat → String) (nodes : List Node) (j : Nat)
    (entry : PassageInsert E × Finset (TargetInsert E)) (n : Node)
    (hentry : (addNodes embedText fresh nodes).2[j]? = some entry)
    (hn : nodes[j]? = some n) :
    entry.1.link_to_tags =
      ((n.links.filter (fun l => l.direction = "out" ∨ l.direction = "bidir")).map
        (fun l => (l.kind, l.tag))).toFinset := by
  rw [addNodes, addNodesAux_snd_getElem, hn] at hentry
  simp only [Option.map_some', Option.some_inj] at hentry
  subst hentry
  simp only [addNodeEntry]
  ext p
  rw [mem_linkToTags]
  simp only [List.mem_toFinset, List.mem_map, List.mem_filter, decide_eq_true_eq]
  constructor
  · rintro ⟨l, hl, hc, hp⟩
    exact ⟨l, ⟨hl, hc⟩, hp.symm⟩
  · rintro ⟨l, ⟨hl, hc⟩, hp⟩
    exact ⟨l, hl, hc, hp.symm⟩

theorem claim_C1_link_to_tags_witness :
    ((addNodes sampleEmbed sampleFresh [sampleNode]).2[0]?.map
        (fun e => e.1.link_to_tags)) = some {("hyperlink", "t1"), ("kw", "t3")} := by
  have h := claim_C1_link_to_tags sampleEmbed sampleFresh [sampleNode] 0
    (addNodeEntry sampleEmbed sampleFresh 0 sampleNode) sampleNode rfl rfl
  have hm : (addNodes sampleEmbed sampleFresh [sampleNode]).2[0]? =
      some (addNodeEntry sampleEmbed sampleFresh 0 sampleNode) := rfl
  rw [hm, Option.map_some', h]
  decide

/-- C2: for every node passed to `add_nodes` with assigned id x, the set of
targets-table inserts for that node contains, for each link L with direction
in or bidir, exactly one insert keyed by (x, L.kind, L.tag) whose
`target_text_embedding` is the node's computed embedding, and contains
nothing an out-link or an unrecognized-direction link would add. -/
theorem claim_C2_target_inserts {E : Type} [DecidableEq E] (embedText : String → E)
    (fresh : Nat → String) (nodes : List Node) (j : Nat)
    (entry : PassageInsert E × Finset (TargetInsert E)) (n : Node) (x : String)
    (hentry : (addNodes embedText fresh nodes).2[j]? = some entry)
    (hn : nodes[j]? = some n)
    (hx : (addNodes embedText fresh nodes).1[j]? = some x) :
    (∀ t : TargetInsert E, t ∈ entry.2 ↔
        ∃ l ∈ n.links, (l.direction = "in" ∨ l.direction = "bidir") ∧
          t = ⟨x, l.kind, l.tag, embedText n.text⟩) ∧
    (∀ l ∈ n.links, (l.direction = "in" ∨ l.direction = "bidir") →
      (entry.2.filter (fun t =>
          t.target_content_id = x ∧ t.kind = l.kind ∧ t.tag = l.tag)).card = 1) := by
  rw [addNodes, addNodesAux_snd_getElem, hn] at hentry
  rw [addNodes, addNodesAux_fst_getElem, hn] at hx
  simp only [Option.map_some', Option.some_inj] at hentry hx
  subst hentry
  subst hx
  have hmem : ∀ t : TargetInsert E,
      t ∈ (addNodeEntry embedText fresh (0 + j) n).2 ↔
        ∃ l ∈ n.links, (l.direction = "in" ∨ l.direction = "bidir") ∧
          t = ⟨materializeId fresh (0 + j) n, l.kind, l.tag, embedText n.text⟩ := by
    intro t
    simp only [addNodeEntry, Finset.mem_image]
    constructor
    · rintro ⟨kt, hkt, ht⟩
      rw [mem_linkFromTags] at hkt
      rcases hkt with ⟨l, hl, hc, hp⟩
      subst hp
      exact ⟨l, hl, hc, ht.symm⟩
    · rintro ⟨l, hl, hc, ht⟩
      refine ⟨(l.kind, l.tag), ?_, ht.symm⟩
      rw [mem_linkFromTags]
      exact ⟨l, hl, hc, rfl⟩
  refine ⟨hmem, ?_⟩
  intro l hl hc
  have hfil : (addNodeEntry embedText fresh (0 + j) n).2.filter (fun t =>
        t.target_content_id = materializeId fresh (0 + j) n ∧
          t.kind = l.kind ∧ t.tag = l.tag) =
      {(⟨materializeId fresh (0 + j) n, l.kind, l.tag, embedText n.text⟩ : TargetInsert E)} := by
    ext t
    rw [Finset.mem_filter, Finset.mem_singleton, hmem]
    constructor
    · rintro ⟨⟨l2, hl2, hc2, ht⟩, hid, hk, htg⟩
      subst ht
      have hk2 : l2.kind = l.kind := hk
      have htg2 : l2.tag = l.tag := htg
      rw [hk2, htg2]
    · rintro rfl
      exact ⟨⟨l, hl, hc, rfl⟩, rfl, rfl, rfl⟩
  rw [hfil, Finset.card_singleton]

theorem claim_C2_target_inserts_witness :
    ((⟨"a", "hyperlink", "t2", 0⟩ : TargetInsert Nat) ∈
        (addNodeEntry sampleEmbed sampleFresh 0 sampleNode).2) ∧
    ((addNodeEntry sampleEmbed sampleFresh 0 sampleNode).2.filter (fun t =>
        t.target_content_id = "a" ∧ t.kind = "hyperlink" ∧ t.tag = "t2")).card = 1 := by
  have h := claim_C2_target_inserts sampleEmbed sampleFresh [sampleNode] 0
    (addNodeEntry sampleEmbed sampleFresh 0 sampleNode) sampleNode "a" rfl rfl rfl
  constructor
  · exact (h.1 ⟨"a", "hyperlink", "t2", 0⟩).mpr
      ⟨⟨"hyperlink", "in", "t2"⟩, by decide, Or.inl rfl, rfl⟩
  · exact h.2 ⟨"hyperlink", "in", "t2"⟩ (by decide) (Or.inl rfl)

/-- The metadata transformation the specification describes for the
round-trip: a set stored under the key "links" comes back as the
corresponding list; every other entry is unchanged. -/
def metadataWithLinksSetAsList (md : List (String × PyMetaVal)) : List (String × PyMetaVal) :=
  match md.lookup "links" with
  | some (.pyset xs) => assocSet md "links" (.js (.arr xs))
  | _ => md

lemma decode_encodeMetaVals :
    ∀ (md : List (String × PyMetaVal)) (blob : List (String × JsonVal)),
      encodeMetaVals md = some blob → _deserialize_metadata blob = md := by
  intro md
  induction md with
  | nil =>
    intro blob h
    simp only [encodeMetaVals, Option.some_inj] at h
    subst h
    rfl
  | cons kv rest ih =>
    intro blob h
    rcases kv with ⟨k, v⟩
    cases v with
    | js j =>
      simp only [encodeMetaVals, Option.map_eq_some'] at h
      rcases h with ⟨bs, hbs, hblob⟩
      subst hblob
      simp only [_deserialize_metadata, List.map_cons]
      rw [show List.map (fun kv => (kv.1, PyMetaVal.js kv.2)) bs = _deserialize_metadata bs from rfl]
      rw [ih bs hbs]
    | pyset xs =>
      simp only [encodeMetaVals] at h
      exact absurd h (by simp)

/-- C3: decoding a row whose `text_content`, `metadata_blob` and `links_blob`
were produced by the serialization used by `add_nodes` yields, via
`_row_to_node`, a node with the same text, the same metadata except that a
set stored under the metadata key "links" comes back as a list, and exactly
the same set of links. -/
theorem claim_C3_roundtrip (n : Node) (cid : String) (blob : List (String × JsonVal))
    (hblob : _serialize_metadata n.metadata = some blob) :
    (_row_to_node ⟨cid, n.text, blob, _serialize_links n.links⟩).text = n.text ∧
    (_row_to_node ⟨cid, n.text, blob, _serialize_links n.links⟩).metadata =
      metadataWithLinksSetAsList n.metadata ∧
    (_row_to_node ⟨cid, n.text, blob, _serialize_links n.links⟩).links.toFinset =
      n.links.toFinset := by
  refine ⟨rfl, ?_, ?_⟩
  · simp only [_serialize_metadata] at hblob
    have h := decode_encodeMetaVals _ _ hblob
    rw [_row_to_node]
    rw [metadataWithLinksSetAsList]
    exact h
  · rw [_row_to_node]
    simp only [_deserialize_links, _serialize_links]
    ext x
    simp [List.mem_dedup]

def sampleMeta : List (String × PyMetaVal) :=
  [("title", .js (.str "T")), ("links", .pyset [.str "u1", .str "u2"])]

def sampleMetaNode : Node :=
  { text := "beta", id := some "b", metadata := sampleMeta, links := sampleLinks }

theorem claim_C3_roundtrip_witness :
    (_row_to_node ⟨"b", sampleMetaNode.text,
        [("title", JsonVal.str "T"), ("links", JsonVal.arr [JsonVal.str "u1", JsonVal.str "u2"])],
        _serialize_links sampleMetaNode.links⟩).text = sampleMetaNode.text ∧
    (_row_to_node ⟨"b", sampleMetaNode.text,
        [("title", JsonVal.str "T"), ("links", JsonVal.arr [JsonVal.str "u1", JsonVal.str "u2"])],
        _serialize_links sampleMetaNode.links⟩).metadata =
      metadataWithLinksSetAsList sampleMetaNode.metadata ∧
    (_row_to_node ⟨"b", sampleMetaNode.text,
        [("title", JsonVal.str "T"), ("links", JsonVal.arr [JsonVal.str "u1", JsonVal.str "u2"])],
        _serialize_links sampleMetaNode.links⟩).links.toFinset =
      sampleMetaNode.links.toFinset :=
  claim_C3_roundtrip sampleMetaNode "b"
    [("title", JsonVal.str "T"), ("links", JsonVal.arr [JsonVal.str "u1", JsonVal.str "u2"])]
    rfl

/-- Association-list lookup with decidable key equality (Python dict read). -/
def assocLookup {κ α : Type} [DecidableEq κ] (l : List (κ × α)) (k : κ) : Option α :=
  match l with
  | [] => none
  | kv :: rest => if kv.1 = k then some kv.2 else assocLookup rest k

/-- The fetch loop of `_nodes_with_ids`: iterate the requested ids; an id not
yet in `results` is marked and fetched (`_query_by_id` is a primary-key
lookup returning zero or one row, decoded by the callback into `results`; on
zero rows the mark `None` remains).  Returns the results map and the ids
actually fetched, in order. -/
def nodesWithIdsFetch (table : String → Option Row) :
    List String → List (String × Option Node) → List String →
      List (String × Option Node) × List String
  | [], results, fetches => (results, fetches)
  | node_id :: rest, results, fetches =>
    if (assocLookup results node_id).isSome then
      nodesWithIdsFetch table rest results fetches
    else
      nodesWithIdsFetch table rest ((node_id, (table node_id).map _row_to_node) :: results)
        (fetches ++ [node_id])

/-- `get_result` inside `_nodes_with_ids`: a `None` entry means the id had no
row, raised as a `ValueError` (every requested id is present in `results`,
so a missing key cannot occur there). -/
def getResult (results : List (String × Option Node)) (node_id : String) : Except String Node :=
  match assocLookup results node_id with
  | some (some node) => .ok node
  | _ => .error ("No node with ID " ++ node_id)

/-- The final list comprehension `[get_result(node_id) for node_id in ids]`:
evaluated left to right, raising at the first missing id. -/
def collectResults (results : List (String × Option Node)) :
    List String → Except String (List Node)
  | [] => .ok []
  | node_id :: rest =>
    match getResult results node_id with
    | .error e => .error e
    | .ok node => (collectResults results rest).map (fun ns => node :: ns)

/-- `_nodes_with_ids`: returns the list of backend fetches issued (in order)
and the outcome. -/
def _nodes_with_ids (table : String → Option Row) (ids : List String) :
    List String × Except String (List Node) :=
  let fr := nodesWithIdsFetch table ids [] []
  (fr.2, collectResults fr.1 ids)

lemma nodesWithIdsFetch_lookup (table : String → Option Row) :
    ∀ (ids : List String) (results : List (String × Option Node)) (fetches : List String)
      (hres : ∀ k v, assocLookup results k = some v → v = (table k).map _row_to_node)
      (id : String), (id ∈ ids ∨ (assocLookup results id).isSome) →
      assocLookup (nodesWithIdsFetch table ids results fetches).1 id =
        some ((table id).map _row_to_node) := by
  intro ids
  induction ids with
  | nil =>
    intro results fetches hres id hid
    rcases hid with h | h
    · exact absurd h (List.not_mem_nil id)
    · simp only [nodesWithIdsFetch]
      rcases Option.isSome_iff_exists.mp h with ⟨v, hv⟩
      rw [hv, hres id v hv]
  | cons id0 rest ih =>
    intro results fetches hres id hid
    simp only [nodesWithIdsFetch]
    by_cases h0 : (assocLookup results id0).isSome
    · rw [if_pos h0]
      refine ih results fetches hres id ?_
      rcases hid with h | h
      · rcases List.mem_cons.mp h with rfl | h
        · exact Or.inr h0
        · exact Or.inl h
      · exact Or.inr h
    · rw [if_neg h0]
      have hres2 : ∀ k v,
          assocLookup ((id0, (table id0).map _row_to_node) :: results) k = some v →
            v = (table k).map _row_to_node := by
        intro k v hv
        simp only [assocLookup] at hv
        by_cases hk : id0 = k
        · rw [if_pos hk] at hv
          subst hk
          exact (Option.some_inj.mp hv).symm
        · rw [if_neg hk] at hv
          exact hres k v hv
      refine ih _ _ hres2 id ?_
      rcases hid with h | h
      · rcases List.mem_cons.mp h with rfl | h
        · refine Or.inr ?_
          simp [assocLookup]
        · exact Or.inl h
      · refine Or.inr ?_
        simp only [assocLookup]
        by_cases hk : id0 = id
        · simp [hk]
        · simpa [if_neg hk] using h

lemma nodesWithIdsFetch_fetches (table : String → Option Row) :
    ∀ (ids : List String) (results : List (String × Option Node)) (fetches : List String)
      (hinv : ∀ id, id ∈ fetches ↔ (assocLookup results id).isSome)
      (hnd : fetches.Nodup),
      (nodesWithIdsFetch table ids results fetches).2.Nodup ∧
      (∀ id, id ∈ (nodesWithIdsFetch table ids results fetches).2 ↔
        (id ∈ ids ∨ (assocLookup results id).isSome)) := by
  intro ids
  induction ids with
  | nil =>
    intro results fetches hinv hnd
    refine ⟨hnd, ?_⟩
    intro id
    simp only [nodesWithIdsFetch]
    rw [hinv id]
    simp
  | cons id0 rest ih =>
    intro results fetches hinv hnd
    simp only [nodesWithIdsFetch]
    by_cases h0 : (assocLookup results id0).isSome
    · rw [if_pos h0]
      rcases ih results fetches hinv hnd with ⟨h1, h2⟩
      refine ⟨h1, ?_⟩
      intro id
      rw [h2 id]
      constructor
      · rintro (h | h)
        · exact Or.inl (List.mem_cons_of_mem _ h)
        · exact Or.inr h
      · rintro (h | h)
        · rcases List.mem_cons.mp h with rfl | h
          · exact Or.inr h0
          · exact Or.inl h
        · exact Or.inr h
    · rw [if_neg h0]
      have hinv2 : ∀ id, id ∈ fetches ++ [id0] ↔
          (assocLookup ((id0, (table id0).map _row_to_node) :: results) id).isSome := by
        intro id
        simp only [List.mem_append, List.mem_singleton, assocLookup]
        by_cases hk : id0 = id
        · subst hk
          simp [hinv id0, h0]
        · have : ¬id = id0 := fun h => hk h.symm
          simp [if_neg hk, this, hinv id]
      have hnd2 : (fetches ++ [id0]).Nodup := by
        rw [List.nodup_append]
        refine ⟨hnd, List.nodup_singleton id0, ?_⟩
        intro a ha hb
        rcases List.mem_singleton.mp hb with rfl
        exact h0 ((hinv a).mp ha)
      rcases ih _ _ hinv2 hnd2 with ⟨h1, h2⟩
      refine ⟨h1, ?_⟩
      intro id
      rw [h2 id]
      simp only [assocLookup]
      by_cases hk : id0 = id
      · subst hk
        simp
      · have : ¬id = id0 := fun h => hk h.symm
        simp only [if_neg hk, List.mem_cons]
        tauto

lemma collectResults_spec (table : String → Option Row) :
    ∀ (ids : List String) (results : List (String × Option Node)),
      (∀ id ∈ ids, assocLookup results id = some ((table id).map _row_to_node)) →
      (∀ ns, collectResults results ids = .ok ns →
        ns.length = ids.length ∧
        ∀ (j : Nat) (id : String), ids[j]? = some id → ns[j]? = (table id).map _row_to_node) ∧
      (∀ e, collectResults results ids = .error e →
        ∃ id ∈ ids, table id = none ∧ e = "No node with ID " ++ id) ∧
      ((∃ id ∈ ids, table id = none) → ∃ e, collectResults results ids = .error e) := by
  intro ids
  induction ids with
  | nil =>
    intro results hlook
    refine ⟨?_, ?_, ?_⟩
    · intro ns hns
      simp only [collectResults, Except.ok.injEq] at hns
      subst hns
      refine ⟨rfl, ?_⟩
      intro j id h
      simp at h
    · intro e he
      simp [collectResults] at he
    · rintro ⟨id, hid, _⟩
      exact absurd hid (List.not_mem_nil id)
  | cons id0 rest ih =>
    intro results hlook
    have hl0 := hlook id0 (List.mem_cons_self id0 rest)
    have hrest : ∀ id ∈ rest, assocLookup results id = some ((table id).map _row_to_node) :=
      fun id h => hlook id (List.mem_cons_of_mem _ h)
    rcases ih results hrest with ⟨iha, ihb, ihc⟩
    cases htab : table id0 with
    | none =>
      have hget : getResult results id0 = .error ("No node with ID " ++ id0) := by
        rw [getResult, hl0, htab]
        rfl
      refine ⟨?_, ?_, ?_⟩
      · intro ns hns
        simp only [collectResults, hget] at hns
        exact Except.noConfusion hns
      · intro e he
        simp only [collectResults, hget, Except.error.injEq] at he
        exact ⟨id0, List.mem_cons_self id0 rest, htab, he.symm⟩
      · intro _
        exact ⟨"No node with ID " ++ id0, by simp only [collectResults, hget]⟩
    | some row =>
      have hget : getResult results id0 = .ok (_row_to_node row) := by
        rw [getResult, hl0, htab]
        rfl
      refine ⟨?_, ?_, ?_⟩
      · intro ns hns
        simp only [collectResults, hget] at hns
        cases hc : collectResults results rest with
        | error e =>
          rw [hc] at hns
          simp [Except.map] at hns
        | ok ns2 =>
          rw [hc] at hns
          simp only [Except.map, Except.ok.injEq] at hns
          subst hns
          rcases (iha ns2 hc) with ⟨hlen, hidx⟩
          refine ⟨by simp [hlen], ?_⟩
          intro j id h
          cases j with
          | zero =>
            simp only [List.getElem?_cons_zero, Option.some_inj] at h
            subst h
            simp [htab]
          | succ j =>
            simp only [List.getElem?_cons_succ] at h ⊢
            exact hidx j id h
      · intro e he
        simp only [collectResults, hget] at he
        cases hc : collectResults results rest with
        | error e2 =>
          rw [hc] at he
          simp only [Except.map, Except.error.injEq] at he
          subst he
          rcases ihb e2 hc with ⟨id, hid, hnone, hE⟩
          exact ⟨id, List.mem_cons_of_mem _ hid, hnone, hE⟩
        | ok ns2 =>
          rw [hc] at he
          simp [Except.map] at he
      · rintro ⟨id, hid, hnone⟩
        rcases List.mem_cons.mp hid with rfl | hid2
        · rw [htab] at hnone
          exact absurd hnone (by simp)
        · rcases ihc ⟨id, hid2, hnone⟩ with ⟨e, he⟩
          refine ⟨e, ?_⟩
          simp only [collectResults, hget, he, Except.map]

/-- C4: `_nodes_with_ids` issues one backend fetch per distinct requested id
(duplicates are deduplicated), on success returns exactly one node per input
id in the caller-provided order (the node decoded from that id's row), and
raises a "No node with ID" error exactly when some requested id has no row
in the passage table. -/
theorem claim_C4_nodes_with_ids (table : String → Option Row) (ids : List String) :
    ((_nodes_with_ids table ids).1.Nodup ∧
      ∀ id, id ∈ (_nodes_with_ids table ids).1 ↔ id ∈ ids) ∧
    (∀ ns, (_nodes_with_ids table ids).2 = .ok ns →
      ns.length = ids.length ∧
      ∀ (j : Nat) (id : String), ids[j]? = some id → ns[j]? = (table id).map _row_to_node) ∧
    (∀ e, (_nodes_with_ids table ids).2 = .error e →
      ∃ id ∈ ids, table id = none ∧ e = "No node with ID " ++ id) ∧
    ((∃ id ∈ ids, table id = none) → ∃ e, (_nodes_with_ids table ids).2 = .error e) := by
  have hfet := nodesWithIdsFetch_fetches table ids [] []
    (by intro id; simp [assocLookup]) List.nodup_nil
  have hlook : ∀ id ∈ ids,
      assocLookup (nodesWithIdsFetch table ids [] []).1 id =
        some ((table id).map _row_to_node) := by
    intro id hid
    exact nodesWithIdsFetch_lookup table ids [] []
      (by intro k v h; simp [assocLookup] at h) id (Or.inl hid)
  rcases collectResults_spec table ids _ hlook with ⟨ca, cb, cc⟩
  refine ⟨⟨hfet.1, ?_⟩, ca, cb, cc⟩
  intro id
  show id ∈ (nodesWithIdsFetch table ids [] []).2 ↔ id ∈ ids
  rw [hfet.2 id]
  simp [assocLookup]

def sampleRowA : Row :=
  { content_id := "a", text_content := "alpha", metadata_blob := [], links_blob := [] }

def sampleTable : String → Option Row :=
  fun id => if id = "a" then some sampleRowA else none

theorem claim_C4_nodes_with_ids_witness :
    ("a" ∈ (_nodes_with_ids sampleTable ["a", "a", "b"]).1) ∧
    (_nodes_with_ids sampleTable ["a", "a", "b"]).1 = ["a", "b"] ∧
    (_nodes_with_ids sampleTable ["a", "a", "b"]).2 = .error "No node with ID b" := by
  have h := claim_C4_nodes_with_ids sampleTable ["a", "a", "b"]
  exact ⟨(h.1.2 "a").mpr (by decide), rfl, rfl⟩

/-- `SetupMode` enum. -/
inductive SetupMode where
  | SYNC
  | ASYNC
  | OFF
deriving DecidableEq, Repr

/-- `Enum.name` for `SetupMode`. -/
def SetupMode.enumName : SetupMode → String
  | .SYNC => "SYNC"
  | .ASYNC => "ASYNC"
  | .OFF => "OFF"

/-- The statements `__init__` prepares, in source order, after the setup
branch has succeeded. -/
def preparedStatements : List String :=
  ["insert_passage", "insert_tag", "query_by_id", "query_by_embedding",
   "query_ids_and_link_to_tags_by_embedding", "query_ids_and_link_to_tags_by_id",
   "query_ids_and_embedding_by_embedding", "query_source_tags_by_id",
   "query_targets_embeddings_by_kind_and_tag_and_embedding",
   "query_targets_by_kind_and_value"]

/-- Observable outcome of `GraphStore.__init__`. -/
structure InitResult where
  schemaApplied : Bool
  prepared : List String
deriving DecidableEq, Repr

/-- The construction sequence of `GraphStore.__init__` after session and
keyspace resolution: the setup branch (`SYNC` applies the schema, `OFF`
skips it, anything else raises `ValueError`), then statement preparation. -/
def graphStoreInit (setup_mode : SetupMode) : Except String InitResult := do
  let schemaApplied ←
    if setup_mode = SetupMode.SYNC then pure true
    else if setup_mode ≠ SetupMode.OFF then
      throw ("Invalid setup mode " ++ setup_mode.enumName ++
        ". Only SYNC and OFF are supported at the moment")
    else pure false
  pure { schemaApplied := schemaApplied, prepared := preparedStatements }

/-- C7: construction with SYNC applies the schema DDL, with OFF applies no
schema, and with any other setup mode (such as ASYNC) raises a ValueError
before preparing any statement (no `InitResult` is produced at all). -/
theorem claim_C7_setup_modes :
    graphStoreInit SetupMode.SYNC = .ok ⟨true, preparedStatements⟩ ∧
    graphStoreInit SetupMode.OFF = .ok ⟨false, preparedStatements⟩ ∧
    (∀ m : SetupMode, m ≠ SetupMode.SYNC → m ≠ SetupMode.OFF →
      graphStoreInit m =
        .error ("Invalid setup mode " ++ m.enumName ++
          ". Only SYNC and OFF are supported at the moment")) := by
  refine ⟨rfl, rfl, ?_⟩
  intro m h1 h2
  cases m with
  | SYNC => exact absurd rfl h1
  | ASYNC => rfl
  | OFF => exact absurd rfl h2

theorem claim_C7_setup_modes_witness :
    graphStoreInit SetupMode.ASYNC =
      .error "Invalid setup mode ASYNC. Only SYNC and OFF are supported at the moment" :=
  claim_C7_setup_modes.2.2 SetupMode.ASYNC (by decide) (by decide)

/-- A link whose direction is none of out, in, bidir. -/
def weirdLink : Link :=
  { kind := "k", direction := "up", tag := "t" }

def weirdNode : Node :=
  { text := "w", id := some "w", metadata := [], links := [weirdLink] }

def weirdNodeNoLinks : Node :=
  { text := "w", id := some "w", metadata := [], links := [] }

/-- C8 counterexample: a link with the unrecognized direction "up" does
contribute to something persisted for the node: it is serialized into the
passage row's `links_blob` (which would be empty without it), and it comes
back from `_deserialize_links`. -/
theorem claim_C8_counterexample :
    (addNodeEntry sampleEmbed sampleFresh 0 weirdNode).1.links_blob ≠
      (addNodeEntry sampleEmbed sampleFresh 0 weirdNodeNoLinks).1.links_blob ∧
    weirdLink ∈
      _deserialize_links (addNodeEntry sampleEmbed sampleFresh 0 weirdNode).1.links_blob := by
  decide

/-- C8 amended: a link with a direction other than out, in, bidir
contributes nothing to the graph projections — removing it changes neither
`link_to_tags` nor `link_from_tags` (hence no targets-table insert) — and
no error is raised; but the link is still serialized into `links_blob`. -/
theorem claim_C8_amended (ls1 ls2 : List Link) (l : Link)
    (h1 : l.direction ≠ "out") (h2 : l.direction ≠ "in") (h3 : l.direction ≠ "bidir") :
    linkToTags (ls1 ++ l :: ls2) = linkToTags (ls1 ++ ls2) ∧
    linkFromTags (ls1 ++ l :: ls2) = linkFromTags (ls1 ++ ls2) ∧
    l ∈ _serialize_links (ls1 ++ l :: ls2) := by
  refine ⟨?_, ?_, ?_⟩
  · ext p
    rw [mem_linkToTags, mem_linkToTags]
    constructor
    · rintro ⟨l2, hl2, hc, hp⟩
      rcases List.mem_append.mp hl2 with h | h
      · exact ⟨l2, List.mem_append_left _ h, hc, hp⟩
      · rcases List.mem_cons.mp h with rfl | h
        · rcases hc with hc | hc
          · exact absurd hc h1
          · exact absurd hc h3
        · exact ⟨l2, List.mem_append_right _ h, hc, hp⟩
    · rintro ⟨l2, hl2, hc, hp⟩
      rcases List.mem_append.mp hl2 with h | h
      · exact ⟨l2, List.mem_append_left _ h, hc, hp⟩
      · exact ⟨l2, List.mem_append_right _ (List.mem_cons_of_mem _ h), hc, hp⟩
  · ext p
    rw [mem_linkFromTags, mem_linkFromTags]
    constructor
    · rintro ⟨l2, hl2, hc, hp⟩
      rcases List.mem_append.mp hl2 with h | h
      · exact ⟨l2, List.mem_append_left _ h, hc, hp⟩
      · rcases List.mem_cons.mp h with rfl | h
        · rcases hc with hc | hc
          · exact absurd hc h2
          · exact absurd hc h3
        · exact ⟨l2, List.mem_append_right _ h, hc, hp⟩
    · rintro ⟨l2, hl2, hc, hp⟩
      rcases List.mem_append.mp hl2 with h | h
      · exact ⟨l2, List.mem_append_left _ h, hc, hp⟩
      · exact ⟨l2, List.mem_append_right _ (List.mem_cons_of_mem _ h), hc, hp⟩
  · rw [_serialize_links]
    exact List.mem_append_right _ (List.mem_cons_self _ _)

theorem claim_C8_amended_witness :
    linkToTags [weirdLink] = linkToTags [] ∧
    linkFromTags [weirdLink] = linkFromTags [] ∧
    weirdLink ∈ _serialize_links [weirdLink] :=
  claim_C8_amended [] [] weirdLink (by decide) (by decide) (by decide)

lemma assocLookup_assocSet {κ α : Type} [DecidableEq κ] (l : List (κ × α)) (k : κ) (v : α) :
    ∀ k2, assocLookup (assocSet l k v) k2 = if k2 = k then some v else assocLookup l k2 := by
  induction l with
  | nil =>
    intro k2
    by_cases h : k2 = k
    · subst h
      simp [assocSet, assocLookup]
    · have h2 : ¬k = k2 := fun hh => h hh.symm
      simp [assocSet, assocLookup, h, h2]
  | cons kv rest ih =>
    intro k2
    by_cases hk : kv.1 = k
    · by_cases h2 : k2 = k
      · subst h2
        simp [assocSet, assocLookup, hk]
      · have h2b : ¬k = k2 := fun hh => h2 hh.symm
        have h4 : ¬kv.1 = k2 := by rw [hk]; exact h2b
        simp [assocSet, assocLookup, hk, h2, h2b, h4]
    · by_cases h2 : k2 = k
      · subst h2
        simp [assocSet, assocLookup, hk, ih]
      · simp [assocSet, assocLookup, hk, h2, ih]

/-- `_Edge` dataclass. -/
structure Edge (E : Type) where
  target_content_id : String
  target_text_embedding : E
deriving DecidableEq, Repr

/-- The backend interface `_get_adjacent` consumes: the per-id
`link_to_tags` projection (`_query_source_tags_by_id`: zero or one row, the
row's set possibly NULL) and the per-tag ANN query over the targets table
(`_query_targets_embeddings_by_kind_and_tag_and_embedding`, given kind,
tag, query embedding and LIMIT). -/
structure AdjStore (E : Type) where
  sourceTags : String → Option (Option (List (String × String)))
  targetsAnn : String → String → E → Nat → List (String × E)

/-- Python `x or d` for an optional integer: falsy values (`None` and `0`)
yield `d`. -/
def pyIntOr (v : Option Nat) (d : Nat) : Nat :=
  match v with
  | none => d
  | some n => if n = 0 then d else n

/-- `add_targets`: `targets.setdefault(row.target_content_id,
row.target_text_embedding)` over the rows of one targets query: the first
observation of an id wins. -/
def addTargets {E : Type} (targets : List (String × E)) (rows : List (String × E)) :
    List (String × E) :=
  rows.foldl (fun ts r => if (assocLookup ts r.1).isSome then ts else ts ++ [r]) targets

/-- The loop body of `add_sources` over one row's `link_to_tags`: each tag
not yet visited is added to `visited_tags` and queried against the targets
table with `LIMIT (k_per_tag or 10)`; the rows feed `add_targets`.  The
third component logs every issued targets query as (kind, tag, limit). -/
def processTags {E : Type} (store : AdjStore E) (query_embedding : E) (k_per_tag : Option Nat) :
    List (String × String) → List (String × String) → List (String × E) →
      List (String × String × Nat) →
      List (String × String) × List (String × E) × List (String × String × Nat)
  | [], visited, targets, log => (visited, targets, log)
  | kt :: rest, visited, targets, log =>
    if kt ∈ visited then
      processTags store query_embedding k_per_tag rest visited targets log
    else
      let lim := pyIntOr k_per_tag 10
      let rows := store.targetsAnn kt.1 kt.2 query_embedding lim
      processTags store query_embedding k_per_tag rest (visited ++ [kt])
        (addTargets targets rows) (log ++ [(kt.1, kt.2, lim)])

/-- The source loop of `_get_adjacent`: for each source id, fetch its
`link_to_tags` row (`row.link_to_tags or []` treats a missing row or a NULL
set as no tags) and process its tags. -/
def processSources {E : Type} (store : AdjStore E) (query_embedding : E)
    (k_per_tag : Option Nat) :
    List String → List (String × String) → List (String × E) →
      List (String × String × Nat) →
      List (String × String) × List (String × E) × List (String × String × Nat)
  | [], visited, targets, log => (visited, targets, log)
  | sid :: rest, visited, targets, log =>
    let tags := match store.sourceTags sid with
      | none => []
      | some none => []
      | some (some ts) => ts
    let r := processTags store query_embedding k_per_tag tags visited targets log
    processSources store query_embedding k_per_tag rest r.1 r.2.1 r.2.2

/-- `_get_adjacent`: returns the edges (the `targets` map as `_Edge`
records), the updated `visited_tags`, and the log of targets queries
issued. -/
def _get_adjacent {E : Type} (store : AdjStore E) (source_ids : List String)
    (visited_tags : List (String × String)) (query_embedding : E) (k_per_tag : Option Nat) :
    List (Edge E) × List (String × String) × List (String × String × Nat) :=
  let r := processSources store query_embedding k_per_tag source_ids visited_tags [] []
  (r.2.1.map (fun p => { target_content_id := p.1, target_text_embedding := p.2 }), r.1, r.2.2)

lemma processTags_log_limit {E : Type} (store : AdjStore E) (qe : E) (k_per_tag : Option Nat) :
    ∀ (tags : List (String × String)) (visited : List (String × String))
      (targets : List (String × E)) (log : List (String × String × Nat)),
      (∀ q ∈ log, q.2.2 = pyIntOr k_per_tag 10) →
      ∀ q ∈ (processTags store qe k_per_tag tags visited targets log).2.2,
        q.2.2 = pyIntOr k_per_tag 10 := by
  intro tags
  induction tags with
  | nil => intro visited targets log hlog q hq; exact hlog q hq
  | cons kt rest ih =>
    intro visited targets log hlog q hq
    simp only [processTags] at hq
    by_cases hv : kt ∈ visited
    · rw [if_pos hv] at hq
      exact ih visited targets log hlog q hq
    · rw [if_neg hv] at hq
      refine ih _ _ _ ?_ q hq
      intro q2 hq2
      rcases List.mem_append.mp hq2 with h | h
      · exact hlog q2 h
      · rcases List.mem_singleton.mp h with rfl
        rfl

lemma processSources_log_limit {E : Type} (store : AdjStore E) (qe : E) (k_per_tag : Option Nat) :
    ∀ (sids : List String) (visited : List (String × String))
      (targets : List (String × E)) (log : List (String × String × Nat)),
      (∀ q ∈ log, q.2.2 = pyIntOr k_per_tag 10) →
      ∀ q ∈ (processSources store qe k_per_tag sids visited targets log).2.2,
        q.2.2 = pyIntOr k_per_tag 10 := by
  intro sids
  induction sids with
  | nil => intro visited targets log hlog q hq; exact hlog q hq
  | cons sid rest ih =>
    intro visited targets log hlog q hq
    simp only [processSources] at hq
    exact ih _ _ _ (processTags_log_limit store qe k_per_tag _ _ _ _ hlog) q hq

/-- The backend interface of `mmr_traversal_search`: the initial
`fetch_k` ANN rows (id, embedding) and the adjacency interface used by
`_get_adjacent`. -/
structure MmrStore (E : Type) where
  fetchRows : List (String × E)
  adj : AdjStore E

/-- The per-invocation state of `mmr_traversal_search`.  `candidates` and
`selected` belong to the MMR helper; `expansions` logs each `_get_adjacent`
call as (selected_id, depths[selected_id]); `adjQueries` accumulates the
targets queries issued by those calls as (kind, tag, limit). -/
structure MmrState (E : Type) where
  candidates : List (String × E)
  selected : List String
  depths : List (String × Nat)
  visited_tags : List (String × String)
  expansions : List (String × Nat)
  adjQueries : List (String × String × Nat)

/-- Modelled from the spec: `MmrHelper.add_candidates` (the module
`_mmr_helper` is not part of the excerpted sources) inserts new candidates
into the pool; ids already tracked or already selected are not duplicated.
The scoring state is irrelevant to the claims settled here, and candidate
choice is abstracted by the `pick` oracle below. -/
def helperAddCandidates {E : Type} (pool : List (String × E)) (selected : List String)
    (new : List (String × E)) : List (String × E) :=
  new.foldl (fun p r =>
    if (assocLookup p r.1).isSome ∨ r.1 ∈ selected then p else p ++ [r]) pool

/-- State after `helper.add_candidates(fetched)` and
`depths = {candidate_id: 0 for candidate_id in helper.candidate_ids()}`. -/
def mmrInit {E : Type} (store : MmrStore E) : MmrState E :=
  let fetched := store.fetchRows.foldl (fun d r => assocSet d r.1 r.2) []
  let pool := helperAddCandidates [] [] fetched
  { candidates := pool
    selected := []
    depths := pool.map (fun c => (c.1, 0))
    visited_tags := []
    expansions := []
    adjQueries := [] }

/-- The expansion branch of the selection loop (`next_depth < depth`):
`_get_adjacent([selected_id], visited_tags, query_embedding, adjacent_k)`,
the `new_candidates` dict, the shortest-depth updates, and
`helper.add_candidates(new_candidates)`. -/
def mmrExpand {E : Type} (store : MmrStore E) (query_embedding : E) (depth adjacent_k : Nat)
    (selected_id : String) (dsel : Nat) (st : MmrState E) : MmrState E :=
  let r := _get_adjacent store.adj [selected_id] st.visited_tags query_embedding
    (some adjacent_k)
  let next_depth := dsel + 1
  let new_candidates := r.1.foldl (fun d e =>
    assocSet d e.target_content_id e.target_text_embedding) []
  let depths2 := r.1.foldl (fun ds e =>
    if next_depth < (assocLookup ds e.target_content_id).getD (depth + 1) then
      assocSet ds e.target_content_id next_depth
    else ds) st.depths
  { candidates := helperAddCandidates st.candidates st.selected new_candidates
    selected := st.selected
    depths := depths2
    visited_tags := r.2.1
    expansions := st.expansions ++ [(selected_id, dsel)]
    adjQueries := st.adjQueries ++ r.2.2 }

/-- One iteration of `for _ in range(k)`: `selected_id = helper.pop_best()`
(the choice abstracted by the oracle `pick`; popping removes the id from
the pool and appends it to the selection), the strict depth gate
`next_depth < depth`, and the expansion branch.  `none` models `break`. -/
def mmrStep {E : Type} (store : MmrStore E) (pick : List (String × E) → Option String)
    (query_embedding : E) (depth adjacent_k : Nat) (st : MmrState E) : Option (MmrState E) :=
  match pick st.candidates with
  | none => none
  | some selected_id =>
    let st1 := { st with candidates := st.candidates.filter (fun c => c.1 ≠ selected_id)
                         selected := st.selected ++ [selected_id] }
    let dsel := (assocLookup st1.depths selected_id).getD (depth + 1)
    if dsel + 1 < depth then
      some (mmrExpand store query_embedding depth adjacent_k selected_id dsel st1)
    else
      some st1

/-- The selection loop, `k` iterations with early `break`. -/
def mmrLoop {E : Type} (store : MmrStore E) (pick : List (String × E) → Option String)
    (query_embedding : E) (depth adjacent_k : Nat) : Nat → MmrState E → MmrState E
  | 0, st => st
  | k + 1, st =>
    match mmrStep store pick query_embedding depth adjacent_k st with
    | none => st
    | some st2 => mmrLoop store pick query_embedding depth adjacent_k k st2

/-- `mmr_traversal_search` (the final hydration `_nodes_with_ids
(selected_ids)` is the function settled by C4; the claims here concern the
loop state). -/
def mmr_traversal_search {E : Type} (store : MmrStore E)
    (pick : List (String × E) → Option String) (query_embedding : E)
    (k depth adjacent_k : Nat) : MmrState E :=
  mmrLoop store pick query_embedding depth adjacent_k k (mmrInit store)

/-- The ids seeded by the initial ANN fetch (depth-0 roots). -/
def mmrRootIds {E : Type} (store : MmrStore E) : List String :=
  (mmrInit store).candidates.map Prod.fst

lemma assocLookup_map_zero {E : Type} :
    ∀ (pool : List (String × E)) (id : String) (d : Nat),
      assocLookup (pool.map (fun c => (c.1, 0))) id = some d →
        d = 0 ∧ id ∈ pool.map Prod.fst := by
  intro pool
  induction pool with
  | nil => intro id d h; simp [assocLookup] at h
  | cons c rest ih =>
    intro id d h
    simp only [List.map_cons, assocLookup] at h
    by_cases hc : c.1 = id
    · rw [if_pos hc] at h
      exact ⟨(Option.some_inj.mp h).symm, by simp [hc.symm]⟩
    · rw [if_neg hc] at h
      rcases ih id d h with ⟨h1, h2⟩
      exact ⟨h1, List.mem_cons_of_mem _ h2⟩

lemma depthUpdate_lookup {E : Type} (nd dflt : Nat) :
    ∀ (edges : List (Edge E)) (ds : List (String × Nat)) (id : String) (d : Nat),
      assocLookup (edges.foldl (fun ds e =>
        if nd < (assocLookup ds e.target_content_id).getD dflt then
          assocSet ds e.target_content_id nd
        else ds) ds) id = some d →
      assocLookup ds id = some d ∨ d = nd := by
  intro edges
  induction edges with
  | nil => intro ds id d h; exact Or.inl h
  | cons e rest ih =>
    intro ds id d h
    simp only [List.foldl_cons] at h
    by_cases hc : nd < (assocLookup ds e.target_content_id).getD dflt
    · rw [if_pos hc] at h
      rcases ih _ id d h with h2 | h2
      · rw [assocLookup_assocSet] at h2
        by_cases hid : id = e.target_content_id
        · rw [if_pos hid] at h2
          exact Or.inr (Option.some_inj.mp h2).symm
        · rw [if_neg hid] at h2
          exact Or.inl h2
      · exact Or.inr h2
    · rw [if_neg hc] at h
      exact ih _ id d h

/-- Invariant of the selection loop: a depths entry of 0 belongs to an
ANN-seeded root, and every logged expansion passed the strict gate (and,
when its recorded depth was 0, expanded a root). -/
def MmrInv {E : Type} (store : MmrStore E) (depth : Nat) (st : MmrState E) : Prop :=
  (∀ id d, assocLookup st.depths id = some d → d = 0 → id ∈ mmrRootIds store) ∧
  (∀ p ∈ st.expansions, p.2 + 1 < depth ∧ (p.2 = 0 → p.1 ∈ mmrRootIds store))

lemma mmrInv_init {E : Type} (store : MmrStore E) (depth : Nat) :
    MmrInv store depth (mmrInit store) := by
  constructor
  · intro id d h _
    exact (assocLookup_map_zero _ id d h).2
  · intro p hp
    simp [mmrInit] at hp

lemma mmrStep_inv {E : Type} (store : MmrStore E) (pick : List (String × E) → Option String)
    (qe : E) (depth adjacent_k : Nat) (st st2 : MmrState E)
    (hst : mmrStep store pick qe depth adjacent_k st = some st2)
    (hinv : MmrInv store depth st) : MmrInv store depth st2 := by
  simp only [mmrStep] at hst
  cases hpick : pick st.candidates with
  | none =>
    rw [hpick] at hst
    exact Option.noConfusion hst
  | some sel =>
    rw [hpick] at hst
    simp only at hst
    by_cases hgate : (assocLookup st.depths sel).getD (depth + 1) + 1 < depth
    · rw [if_pos hgate] at hst
      have hst2 := (Option.some_inj.mp hst).symm
      subst hst2
      constructor
      · intro id d h hd0
        simp only [mmrExpand] at h
        rcases depthUpdate_lookup _ _ _ _ id d h with h2 | h2
        · exact hinv.1 id d h2 hd0
        · rw [hd0] at h2
          exact absurd h2.symm (Nat.succ_ne_zero _)
      · intro p hp
        simp only [mmrExpand, List.mem_append, List.mem_singleton] at hp
        rcases hp with hp | hp
        · exact hinv.2 p hp
        · subst hp
          refine ⟨hgate, ?_⟩
          intro hd0
          cases hl : assocLookup st.depths sel with
          | none =>
            rw [hl] at hd0
            simp at hd0
          | some d0 =>
            rw [hl] at hd0
            simp only [Option.getD_some] at hd0
            exact hinv.1 sel d0 hl hd0
    · rw [if_neg hgate] at hst
      have hst2 := (Option.some_inj.mp hst).symm
      subst hst2
      exact hinv

lemma mmrLoop_inv {E : Type} (store : MmrStore E) (pick : List (String × E) → Option String)
    (qe : E) (depth adjacent_k : Nat) :
    ∀ (fuel : Nat) (st : MmrState E), MmrInv store depth st →
      MmrInv store depth (mmrLoop store pick qe depth adjacent_k fuel st) := by
  intro fuel
  induction fuel with
  | zero => intro st h; exact h
  | succ n ih =>
    intro st h
    simp only [mmrLoop]
    cases hst : mmrStep store pick qe depth adjacent_k st with
    | none => exact h
    | some st2 => exact ih st2 (mmrStep_inv store pick qe depth adjacent_k st st2 hst h)

/-- C6: the graph-expansion gate of `mmr_traversal_search` is strict —
every `_get_adjacent` call is made for a selected id whose recorded depth d
satisfies d + 1 < depth — so with the default depth = 2 expansion happens
only from nodes whose recorded depth is 0, which are exactly ANN-seeded
roots; a node first discovered at depth 1 is never expanded even if it is
later selected. -/
theorem claim_C6_depth_gate {E : Type} (store : MmrStore E)
    (pick : List (String × E) → Option String) (qe : E) (k depth adjacent_k : Nat) :
    (∀ p ∈ (mmr_traversal_search store pick qe k depth adjacent_k).expansions,
      p.2 + 1 < depth) ∧
    (depth = 2 →
      ∀ p ∈ (mmr_traversal_search store pick qe k depth adjacent_k).expansions,
        p.2 = 0 ∧ p.1 ∈ mmrRootIds store) := by
  have hinv := mmrLoop_inv store pick qe depth adjacent_k k (mmrInit store)
    (mmrInv_init store depth)
  constructor
  · intro p hp
    exact (hinv.2 p hp).1
  · intro h2 p hp
    rcases hinv.2 p hp with ⟨hlt, hroot⟩
    rw [h2] at hlt
    have hz : p.2 = 0 := by omega
    exact ⟨hz, hroot hz⟩

def wAdjStore : AdjStore Nat :=
  { sourceTags := fun sid => if sid = "a" then some (some [("k", "t")]) else none
    targetsAnn := fun _ _ _ _ => [("b", 7)] }

def wMmrStore : MmrStore Nat :=
  { fetchRows := [("a", 3)], adj := wAdjStore }

def wPick : List (String × Nat) → Option String :=
  fun pool => pool.head?.map Prod.fst

theorem claim_C6_depth_gate_witness :
    (mmr_traversal_search wMmrStore wPick 0 2 2 10).expansions = [("a", 0)] ∧
    (2 = 2 → ∀ p ∈ (mmr_traversal_search wMmrStore wPick 0 2 2 10).expansions,
      p.2 = 0 ∧ p.1 ∈ mmrRootIds wMmrStore) := by
  exact ⟨rfl, (claim_C6_depth_gate wMmrStore wPick 0 2 2 10).2⟩

lemma mmrStep_adjQueries_limit {E : Type} (store : MmrStore E)
    (pick : List (String × E) → Option String) (qe : E) (depth : Nat) (st st2 : MmrState E)
    (hst : mmrStep store pick qe depth 0 st = some st2)
    (h : ∀ q ∈ st.adjQueries, q.2.2 = 10) : ∀ q ∈ st2.adjQueries, q.2.2 = 10 := by
  simp only [mmrStep] at hst
  cases hpick : pick st.candidates with
  | none =>
    rw [hpick] at hst
    exact Option.noConfusion hst
  | some sel =>
    rw [hpick] at hst
    simp only at hst
    by_cases hgate : (assocLookup st.depths sel).getD (depth + 1) + 1 < depth
    · rw [if_pos hgate] at hst
      have hst2 := (Option.some_inj.mp hst).symm
      subst hst2
      intro q hq
      simp only [mmrExpand, List.mem_append] at hq
      rcases hq with hq | hq
      · exact h q hq
      · have hlog := processSources_log_limit store.adj qe (some 0) [sel] _ [] []
          (by intro q2 hq2; simp at hq2) q hq
        simpa [pyIntOr] using hlog
    · rw [if_neg hgate] at hst
      have hst2 := (Option.some_inj.mp hst).symm
      subst hst2
      exact h

lemma mmrLoop_adjQueries_limit {E : Type} (store : MmrStore E)
    (pick : List (String × E) → Option String) (qe : E) (depth : Nat) :
    ∀ (fuel : Nat) (st : MmrState E), (∀ q ∈ st.adjQueries, q.2.2 = 10) →
      ∀ q ∈ (mmrLoop store pick qe depth 0 fuel st).adjQueries, q.2.2 = 10 := by
  intro fuel
  induction fuel with
  | zero => intro st h; exact h
  | succ n ih =>
    intro st h
    simp only [mmrLoop]
    cases hst : mmrStep store pick qe depth 0 st with
    | none => exact h
    | some st2 => exact ih st2 (mmrStep_adjQueries_limit store pick qe depth st st2 hst h)

/-- C10: `_get_adjacent` computes its per-tag ANN limit as
`k_per_tag or 10`, so whenever `k_per_tag` is `0` or `None` every targets
query it issues carries LIMIT 10 rather than 0; consequently
`mmr_traversal_search` with `adjacent_k = 0` issues all its adjacency
queries with LIMIT 10 instead of disabling expansion. -/
theorem claim_C10_adjacent_limit {E : Type} :
    (∀ (store : AdjStore E) (source_ids : List String)
       (visited_tags : List (String × String)) (qe : E) (k_per_tag : Option Nat),
       (k_per_tag = some 0 ∨ k_per_tag = none) →
       ∀ q ∈ (_get_adjacent store source_ids visited_tags qe k_per_tag).2.2, q.2.2 = 10) ∧
    (∀ (store : MmrStore E) (pick : List (String × E) → Option String) (qe : E)
       (k depth : Nat),
       ∀ q ∈ (mmr_traversal_search store pick qe k depth 0).adjQueries, q.2.2 = 10) := by
  constructor
  · intro store source_ids visited_tags qe k_per_tag hk q hq
    have hval : pyIntOr k_per_tag 10 = 10 := by
      rcases hk with rfl | rfl <;> simp [pyIntOr]
    have hlog := processSources_log_limit store qe k_per_tag source_ids visited_tags [] []
      (by intro q2 hq2; simp at hq2) q hq
    rw [hval] at hlog
    exact hlog
  · intro store pick qe k depth q hq
    exact mmrLoop_adjQueries_limit store pick qe depth k (mmrInit store)
      (by intro q2 hq2; simp [mmrInit] at hq2) q hq

theorem claim_C10_adjacent_limit_witness :
    (_get_adjacent wAdjStore ["a"] [] (0 : Nat) (some 0)).2.2 = [("k", "t", 10)] ∧
    (∀ q ∈ (_get_adjacent wAdjStore ["a"] [] (0 : Nat) (some 0)).2.2, q.2.2 = 10) :=
  ⟨rfl, (claim_C10_adjacent_limit (E := Nat)).1 wAdjStore ["a"] [] 0 (some 0) (Or.inl rfl)⟩

/-- The backend interface of `traversal_search`: the ANN seed rows
(`content_id`, `link_to_tags`), the by-id `link_to_tags` projection
(`none` = no row; a NULL set is modelled as the empty list, which the
truthiness guard treats the same way), and the targets-table query by
(kind, tag). -/
structure TravStore where
  seeds : List (String × List (String × String))
  nodeTags : String → Option (List (String × String))
  targets : String × String → List String

/-- A query enqueued on the concurrent runner by `traversal_search`:
`tagQuery d kind tag` runs `_query_targets_by_kind_and_value` with
callback `visit_targets(d, rows)`; `nodeQuery d id` runs
`_query_ids_and_link_to_tags_by_id` with callback
`visit_nodes(d + 1, rows)`. -/
inductive TravTask where
  | tagQuery (d : Nat) (kind : String) (tag : String)
  | nodeQuery (d : Nat) (id : String)
deriving DecidableEq, Repr

/-- The per-invocation state: `visited_ids` and `visited_tags` maps, the
pending query queue (the scheduled callbacks, processed in FIFO order),
and a log of every query ever enqueued. -/
structure TravState where
  visited_ids : List (String × Nat)
  visited_tags : List ((String × String) × Nat)
  queue : List TravTask
  log : List TravTask

/-- The inner tag loop of `visit_nodes`: record new (or newly shallower)
tags into `visited_tags` and collect them into the per-invocation
`outgoing_tags` set. -/
def visitTagsFold (depth d : Nat) :
    List (String × String) → List ((String × String) × Nat) → List (String × String) →
      List ((String × String) × Nat) × List (String × String)
  | [], vt, og => (vt, og)
  | kt :: rest, vt, og =>
    if d ≤ (assocLookup vt kt).getD depth then
      visitTagsFold depth d rest (assocSet vt kt d) (if kt ∈ og then og else og ++ [kt])
    else
      visitTagsFold depth d rest vt og

/-- The row loop of `visit_nodes`: record each node at depth `d` when that
is (weakly) shallower than any previous visit, and when traversal can
continue (`d < depth` and the node has outgoing tags) process its tags. -/
def visitNodesFold (depth d : Nat) :
    List (String × List (String × String)) → List (String × Nat) →
      List ((String × String) × Nat) → List (String × String) →
      List (String × Nat) × List ((String × String) × Nat) × List (String × String)
  | [], vi, vt, og => (vi, vt, og)
  | row :: rest, vi, vt, og =>
    if d ≤ (assocLookup vi row.1).getD depth then
      let vi2 := assocSet vi row.1 d
      if d < depth ∧ row.2 ≠ [] then
        let r := visitTagsFold depth d row.2 vt og
        visitNodesFold depth d rest vi2 r.1 r.2
      else
        visitNodesFold depth d rest vi2 vt og
    else
      visitNodesFold depth d rest vi vt og

/-- `visit_nodes(d, rows)`: run the row loop, then enqueue one targets
query per collected outgoing tag. -/
def visitNodes (depth d : Nat) (rows : List (String × List (String × String)))
    (st : TravState) : TravState :=
  let r := visitNodesFold depth d rows st.visited_ids st.visited_tags []
  let tasks := r.2.2.map (fun kt => TravTask.tagQuery d kt.1 kt.2)
  { visited_ids := r.1
    visited_tags := r.2.1
    queue := st.queue ++ tasks
    log := st.log ++ tasks }

/-- `visit_targets(d, targets)`: collect the target ids strictly closer
than any previous visit (a set) and enqueue one by-id query per new id. -/
def visitTargets (depth d : Nat) (rows : List String) (st : TravState) : TravState :=
  let new_nodes :=
    (rows.filter (fun cid => d < (assocLookup st.visited_ids cid).getD depth)).dedup
  let tasks := new_nodes.map (fun id => TravTask.nodeQuery d id)
  { st with queue := st.queue ++ tasks, log := st.log ++ tasks }

/-- One scheduling step of the concurrent query runner: pop the next
pending query, execute it against the store, run its callback. -/
def travStep (store : TravStore) (depth : Nat) (st : TravState) : TravState :=
  match st.queue with
  | [] => st
  | task :: rest =>
    let st2 := { st with queue := rest }
    match task with
    | .tagQuery d kind tag => visitTargets depth d (store.targets (kind, tag)) st2
    | .nodeQuery d id =>
      let rows := match store.nodeTags id with
        | none => []
        | some tags => [(id, tags)]
      visitNodes depth (d + 1) rows st2

/-- Run the scheduler for `fuel` steps (the scope exits once the queue is
empty; a step on an empty queue is the identity). -/
def travRun (store : TravStore) (depth : Nat) : Nat → TravState → TravState
  | 0, st => st
  | n + 1, st => travRun store depth n (travStep store depth st)

/-- `traversal_search`: the seed ANN query's callback `visit_nodes(0, rows)`
followed by the scheduler; the final hydration `_nodes_with_ids
(visited_ids.keys())` is the function settled by C4. -/
def traversal_search (store : TravStore) (depth fuel : Nat) : TravState :=
  travRun store depth fuel
    (visitNodes depth 0 store.seeds
      { visited_ids := [], visited_tags := [], queue := [], log := [] })

/-- Node `x` declares tag `kt` on one of the rows this invocation can see
(a seed row or the by-id projection). -/
def hasTag (store : TravStore) (x : String) (kt : String × String) : Prop :=
  (∃ tags, (x, tags) ∈ store.seeds ∧ kt ∈ tags) ∨
  (∃ tags, store.nodeTags x = some tags ∧ kt ∈ tags)

/-- `y` is reachable from some ANN-seeded node in at most `d` tag-hops:
one hop goes from a node `x` through a tag `x` declares to any row of the
targets table for that tag. -/
inductive ReachableWithin (store : TravStore) : String → Nat → Prop where
  | seed : ∀ {x : String} {tags : List (String × String)},
      (x, tags) ∈ store.seeds → ReachableWithin store x 0
  | hop : ∀ {x y : String} {kt : String × String} {d : Nat},
      ReachableWithin store x d → hasTag store x kt → y ∈ store.targets kt →
      ReachableWithin store y (d + 1)

lemma visitTagsFold_og (depth d : Nat) :
    ∀ (tags : List (String × String)) (vt : List ((String × String) × Nat))
      (og : List (String × String)) (kt : String × String),
      kt ∈ (visitTagsFold depth d tags vt og).2 → kt ∈ og ∨ kt ∈ tags := by
  intro tags
  induction tags with
  | nil => intro vt og kt h; exact Or.inl h
  | cons kt0 rest ih =>
    intro vt og kt h
    simp only [visitTagsFold] at h
    by_cases hc : d ≤ (assocLookup vt kt0).getD depth
    · rw [if_pos hc] at h
      rcases ih _ _ kt h with h2 | h2
      · by_cases hmem : kt0 ∈ og
        · rw [if_pos hmem] at h2
          exact Or.inl h2
        · rw [if_neg hmem] at h2
          rcases List.mem_append.mp h2 with h3 | h3
          · exact Or.inl h3
          · rcases List.mem_singleton.mp h3 with rfl
            exact Or.inr (List.mem_cons_self _ _)
      · exact Or.inr (List.mem_cons_of_mem _ h2)
    · rw [if_neg hc] at h
      rcases ih _ _ kt h with h2 | h2
      · exact Or.inl h2
      · exact Or.inr (List.mem_cons_of_mem _ h2)

lemma visitNodesFold_vi (depth d : Nat) :
    ∀ (rows : List (String × List (String × String))) (vi : List (String × Nat))
      (vt : List ((String × String) × Nat)) (og : List (String × String))
      (id : String) (dv : Nat),
      assocLookup (visitNodesFold depth d rows vi vt og).1 id = some dv →
      assocLookup vi id = some dv ∨ (dv = d ∧ id ∈ rows.map Prod.fst) := by
  intro rows
  induction rows with
  | nil => intro vi vt og id dv h; exact Or.inl h
  | cons row rest ih =>
    intro vi vt og id dv h
    simp only [visitNodesFold] at h
    by_cases hc : d ≤ (assocLookup vi row.1).getD depth
    · rw [if_pos hc] at h
      have hstep : ∀ vt2 og2,
          assocLookup (visitNodesFold depth d rest (assocSet vi row.1 d) vt2 og2).1 id =
            some dv →
          assocLookup vi id = some dv ∨ (dv = d ∧ id ∈ (row :: rest).map Prod.fst) := by
        intro vt2 og2 h2
        rcases ih _ _ _ id dv h2 with h3 | h3
        · rw [assocLookup_assocSet] at h3
          by_cases hid : id = row.1
          · rw [if_pos hid] at h3
            exact Or.inr ⟨(Option.some_inj.mp h3).symm, by simp [hid]⟩
          · rw [if_neg hid] at h3
            exact Or.inl h3
        · exact Or.inr ⟨h3.1, by simpa using Or.inr h3.2⟩
      by_cases hc2 : d < depth ∧ row.2 ≠ []
      · rw [if_pos hc2] at h
        exact hstep _ _ h
      · rw [if_neg hc2] at h
        exact hstep _ _ h
    · rw [if_neg hc] at h
      rcases ih _ _ _ id dv h with h2 | h2
      · exact Or.inl h2
      · exact Or.inr ⟨h2.1, by simpa using Or.inr h2.2⟩

lemma visitNodesFold_og (depth d : Nat) :
    ∀ (rows : List (String × List (String × String))) (vi : List (String × Nat))
      (vt : List ((String × String) × Nat)) (og : List (String × String))
      (kt : String × String),
      kt ∈ (visitNodesFold depth d rows vi vt og).2.2 →
      kt ∈ og ∨ (d < depth ∧ ∃ row ∈ rows, kt ∈ row.2) := by
  intro rows
  induction rows with
  | nil => intro vi vt og kt h; exact Or.inl h
  | cons row rest ih =>
    intro vi vt og kt h
    simp only [visitNodesFold] at h
    by_cases hc : d ≤ (assocLookup vi row.1).getD depth
    · rw [if_pos hc] at h
      by_cases hc2 : d < depth ∧ row.2 ≠ []
      · rw [if_pos hc2] at h
        rcases ih _ _ _ kt h with h2 | h2
        · rcases visitTagsFold_og depth d row.2 vt og kt h2 with h3 | h3
          · exact Or.inl h3
          · exact Or.inr ⟨hc2.1, row, List.mem_cons_self _ _, h3⟩
        · exact Or.inr ⟨h2.1, by
            rcases h2.2 with ⟨row2, hrow2, hkt2⟩
            exact ⟨row2, List.mem_cons_of_mem _ hrow2, hkt2⟩⟩
      · rw [if_neg hc2] at h
        rcases ih _ _ _ kt h with h2 | h2
        · exact Or.inl h2
        · exact Or.inr ⟨h2.1, by
            rcases h2.2 with ⟨row2, hrow2, hkt2⟩
            exact ⟨row2, List.mem_cons_of_mem _ hrow2, hkt2⟩⟩
    · rw [if_neg hc] at h
      rcases ih _ _ _ kt h with h2 | h2
      · exact Or.inl h2
      · exact Or.inr ⟨h2.1, by
          rcases h2.2 with ⟨row2, hrow2, hkt2⟩
          exact ⟨row2, List.mem_cons_of_mem _ hrow2, hkt2⟩⟩

lemma visitNodesFold_zero_isSome (depth : Nat) :
    ∀ (rows : List (String × List (String × String))) (vi : List (String × Nat))
      (vt : List ((String × String) × Nat)) (og : List (String × String)) (id : String),
      (assocLookup (visitNodesFold depth 0 rows vi vt og).1 id).isSome ↔
        ((assocLookup vi id).isSome ∨ id ∈ rows.map Prod.fst) := by
  intro rows
  induction rows with
  | nil => intro vi vt og id; simp [visitNodesFold]
  | cons row rest ih =>
    intro vi vt og id
    simp only [visitNodesFold, if_pos (Nat.zero_le _)]
    have hset : ∀ vt2 og2,
        (assocLookup (visitNodesFold depth 0 rest (assocSet vi row.1 0) vt2 og2).1 id).isSome ↔
          ((assocLookup vi id).isSome ∨ id ∈ (row :: rest).map Prod.fst) := by
      intro vt2 og2
      rw [ih]
      rw [assocLookup_assocSet]
      by_cases hid : id = row.1
      · simp [hid]
      · simp only [if_neg hid, List.map_cons, List.mem_cons]
        constructor
        · rintro (h | h)
          · exact Or.inl h
          · exact Or.inr (Or.inr h)
        · rintro (h | h | h)
          · exact Or.inl h
          · exact absurd h hid
          · exact Or.inr h
    by_cases hc2 : (0 : Nat) < depth ∧ row.2 ≠ []
    · rw [if_pos hc2]
      exact hset _ _
    · rw [if_neg hc2]
      exact hset _ _

/-- Invariant carried by each pending query of the traversal. -/
def travTaskInv (store : TravStore) (depth : Nat) : TravTask → Prop
  | .tagQuery d kind tag =>
      d < depth ∧ ∃ x, ReachableWithin store x d ∧ hasTag store x (kind, tag)
  | .nodeQuery d id =>
      d < depth ∧ ∃ x kt, ReachableWithin store x d ∧ hasTag store x kt ∧
        id ∈ store.targets kt

/-- Invariant of the traversal scheduler: every visited id is recorded at a
depth within the limit at which it is reachable from some seed, and every
pending query carries the evidence needed to keep that true. -/
def TravInv (store : TravStore) (depth : Nat) (st : TravState) : Prop :=
  (∀ id d, assocLookup st.visited_ids id = some d →
    d ≤ depth ∧ ReachableWithin store id d) ∧
  (∀ t ∈ st.queue, travTaskInv store depth t)

lemma visitNodes_inv (store : TravStore) (depth d : Nat)
    (rows : List (String × List (String × String))) (st : TravState)
    (hd : d ≤ depth)
    (hrows : ∀ row ∈ rows, ReachableWithin store row.1 d ∧
      ∀ kt ∈ row.2, hasTag store row.1 kt)
    (hinv : TravInv store depth st) :
    TravInv store depth (visitNodes depth d rows st) := by
  constructor
  · intro id dv h
    simp only [visitNodes] at h
    rcases visitNodesFold_vi depth d rows _ _ _ id dv h with h2 | h2
    · exact hinv.1 id dv h2
    · rcases h2 with ⟨rfl, hmem⟩
      rcases List.mem_map.mp hmem with ⟨row, hrow, hfst⟩
      exact ⟨hd, hfst ▸ (hrows row hrow).1⟩
  · intro t ht
    simp only [visitNodes, List.mem_append] at ht
    rcases ht with ht | ht
    · exact hinv.2 t ht
    · rcases List.mem_map.mp ht with ⟨kt, hkt, rfl⟩
      rcases visitNodesFold_og depth d rows _ _ _ kt hkt with h2 | h2
      · exact absurd h2 (List.not_mem_nil kt)
      · rcases h2 with ⟨hlt, row, hrow, hkt2⟩
        exact ⟨hlt, row.1, (hrows row hrow).1, (hrows row hrow).2 kt hkt2⟩

lemma visitTargets_inv (store : TravStore) (depth d : Nat) (rows : List String)
    (st : TravState)
    (hrows : ∀ cid ∈ rows, ∃ x kt, ReachableWithin store x d ∧ hasTag store x kt ∧
      cid ∈ store.targets kt)
    (hd : d < depth)
    (hinv : TravInv store depth st) :
    TravInv store depth (visitTargets depth d rows st) := by
  constructor
  · intro id dv h
    exact hinv.1 id dv h
  · intro t ht
    simp only [visitTargets, List.mem_append] at ht
    rcases ht with ht | ht
    · exact hinv.2 t ht
    · rcases List.mem_map.mp ht with ⟨cid, hcid, rfl⟩
      have hcid2 : cid ∈ rows := List.mem_of_mem_filter (List.mem_dedup.mp hcid)
      rcases hrows cid hcid2 with ⟨x, kt, h1, h2, h3⟩
      exact ⟨hd, x, kt, h1, h2, h3⟩

lemma travStep_inv (store : TravStore) (depth : Nat) (st : TravState)
    (hinv : TravInv store depth st) : TravInv store depth (travStep store depth st) := by
  cases hq : st.queue with
  | nil =>
    simp only [travStep, hq]
    exact hinv
  | cons task rest =>
    have hrest : ∀ t ∈ rest, travTaskInv store depth t :=
      fun t ht => hinv.2 t (hq ▸ List.mem_cons_of_mem _ ht)
    have htask : travTaskInv store depth task := hinv.2 task (hq ▸ List.mem_cons_self _ _)
    have hinv2 : TravInv store depth { st with queue := rest } := ⟨hinv.1, hrest⟩
    simp only [travStep, hq]
    cases task with
    | tagQuery d kind tag =>
      rcases htask with ⟨hd, x, hx, htag⟩
      refine visitTargets_inv store depth d _ _ ?_ hd hinv2
      intro cid hcid
      exact ⟨x, (kind, tag), hx, htag, hcid⟩
    | nodeQuery d id =>
      rcases htask with ⟨hd, x, kt, hx, htag, htgt⟩
      have hreach : ReachableWithin store id (d + 1) := ReachableWithin.hop hx htag htgt
      refine visitNodes_inv store depth (d + 1) _ _ (by omega) ?_ hinv2
      intro row hrow
      cases hnt : store.nodeTags id with
      | none =>
        simp only [hnt] at hrow
        exact absurd hrow (List.not_mem_nil row)
      | some tags =>
        simp only [hnt] at hrow
        rcases List.mem_singleton.mp hrow with rfl
        exact ⟨hreach, fun kt2 hkt2 => Or.inr ⟨tags, hnt, hkt2⟩⟩

lemma travRun_inv (store : TravStore) (depth : Nat) :
    ∀ (fuel : Nat) (st : TravState), TravInv store depth st →
      TravInv store depth (travRun store depth fuel st) := by
  intro fuel
  induction fuel with
  | zero => intro st h; exact h
  | succ n ih => intro st h; exact ih _ (travStep_inv store depth st h)

lemma travInit_inv (store : TravStore) (depth : Nat) :
    TravInv store depth (visitNodes depth 0 store.seeds
      { visited_ids := [], visited_tags := [], queue := [], log := [] }) := by
  refine visitNodes_inv store depth 0 store.seeds _ (Nat.zero_le _) ?_ ?_
  · intro row hrow
    refine ⟨ReachableWithin.seed hrow, ?_⟩
    intro kt hkt
    exact Or.inl ⟨row.2, hrow, hkt⟩
  · constructor
    · intro id d h
      simp [assocLookup] at h
    · intro t ht
      simp at ht

lemma travRun_empty_queue (store : TravStore) (depth : Nat) :
    ∀ (fuel : Nat) (st : TravState), st.queue = [] →
      travRun store depth fuel st = st := by
  intro fuel
  induction fuel with
  | zero => intro st _; rfl
  | succ n ih =>
    intro st h
    simp only [travRun, travStep, h]
    exact ih st h

lemma travInit_zero (store : TravStore) :
    (visitNodes 0 0 store.seeds
      { visited_ids := [], visited_tags := [], queue := [], log := [] }).queue = [] ∧
    (visitNodes 0 0 store.seeds
      { visited_ids := [], visited_tags := [], queue := [], log := [] }).log = [] ∧
    ∀ id, (assocLookup (visitNodes 0 0 store.seeds
      { visited_ids := [], visited_tags := [], queue := [], log := [] }).visited_ids
        id).isSome ↔ id ∈ store.seeds.map Prod.fst := by
  have hog : (visitNodesFold 0 0 store.seeds [] [] []).2.2 = [] := by
    rw [List.eq_nil_iff_forall_not_mem]
    intro kt hkt
    rcases visitNodesFold_og 0 0 store.seeds [] [] [] kt hkt with h | h
    · exact List.not_mem_nil kt h
    · exact absurd h.1 (by omega)
  refine ⟨?_, ?_, ?_⟩
  · simp [visitNodes, hog]
  · simp [visitNodes, hog]
  · intro id
    simp only [visitNodes]
    rw [visitNodesFold_zero_isSome]
    simp [assocLookup]

/-- C5: every id recorded in `visited_ids` by `traversal_search` (and hence
every returned node) is recorded at a depth no greater than `depth` at
which it is reachable from some ANN-seeded node by tag-hops; with
`depth = 0` the visited set is exactly the ANN-seeded ids and no
target-table or node-expansion query is ever issued. -/
theorem claim_C5_traversal_depth_bound (store : TravStore) (depth fuel : Nat) :
    (∀ id d, assocLookup (traversal_search store depth fuel).visited_ids id = some d →
      d ≤ depth ∧ ReachableWithin store id d) ∧
    (depth = 0 →
      (∀ id, (assocLookup (traversal_search store depth fuel).visited_ids id).isSome ↔
        id ∈ store.seeds.map Prod.fst) ∧
      (traversal_search store depth fuel).log = []) := by
  constructor
  · intro id d h
    have hinv := travRun_inv store depth fuel _ (travInit_inv store depth)
    exact hinv.1 id d h
  · intro h0
    subst h0
    have hz := travInit_zero store
    have hrun := travRun_empty_queue store 0 fuel _ hz.1
    rw [traversal_search, hrun]
    exact ⟨hz.2.2, hz.2.1⟩

def wTravStore : TravStore :=
  { seeds := [("a", [("k", "t")])]
    nodeTags := fun id => if id = "b" then some [] else none
    targets := fun kt => if kt = ("k", "t") then ["b"] else [] }

theorem claim_C5_traversal_depth_bound_witness :
    (assocLookup (traversal_search wTravStore 1 5).visited_ids "b" = some 1) ∧
    (1 ≤ 1 ∧ ReachableWithin wTravStore "b" 1) := by
  have h := (claim_C5_traversal_depth_bound wTravStore 1 5).1 "b" 1 rfl
  exact ⟨rfl, h⟩

/-- A heap of Python dict objects (the metadata dicts), addressed by
reference; mutation of a caller-visible object would show up here. -/
structure Heap where
  dicts : List (List (String × PyMetaVal))

/-- Dereference (an invalid reference yields the empty dict). -/
def Heap.getRef (h : Heap) (r : Nat) : List (String × PyMetaVal) :=
  (h.dicts[r]?).getD []

/-- `d.copy()`: a fresh object with the same contents. -/
def Heap.alloc (h : Heap) (d : List (String × PyMetaVal)) : Heap × Nat :=
  ({ dicts := h.dicts ++ [d] }, h.dicts.length)

/-- `d[k] = v` on the dict behind `r`. -/
def Heap.setKey (h : Heap) (r : Nat) (k : String) (v : PyMetaVal) : Heap :=
  { dicts := h.dicts.set r (assocSet (h.getRef r) k v) }

/-- `_serialize_metadata` with the caller's dict behind a reference:
`md = md.copy()` rebinds the local name to a fresh object, so the
subsequent `md["links"] = list(md["links"])` writes to that copy; on the
other path no statement writes at all. -/
def _serialize_metadata_h (h : Heap) (r : Nat) : Heap × Option (List (String × JsonVal)) :=
  match assocLookup (h.getRef r) "links" with
  | some (.pyset xs) =>
    let ar := h.alloc (h.getRef r)
    let h2 := ar.1.setKey ar.2 "links" (.js (.arr xs))
    (h2, encodeMetaVals (h2.getRef ar.2))
  | _ => (h, encodeMetaVals (h.getRef r))

/-- A `Node` as `add_nodes` sees it, its metadata dict held by reference. -/
structure NodeRef where
  text : String
  id : Option String
  metaRef : Nat
  links : List Link
deriving DecidableEq

def materializeIdRef (fresh : Nat → String) (i : Nat) (n : NodeRef) : String :=
  match n.id with
  | none => fresh i
  | some x => if x = "" then fresh i else x

/-- The write loop of `add_nodes` over heap-held metadata: every statement
of the source either reads node data (`node.id`, `node.text`,
`node.metadata`, `node.links`, `_serialize_links`) or appends to the local
`node_ids` list — the generated id is never assigned to the node — and the
only call reaching a caller-visible mutable object is
`_serialize_metadata`. -/
def add_nodes_h (fresh : Nat → String) :
    Nat → Heap → List NodeRef → Heap × List String
  | _, h, [] => (h, [])
  | i, h, n :: rest =>
    let node_id := materializeIdRef fresh i n
    let sr := _serialize_metadata_h h n.metaRef
    let r2 := add_nodes_h fresh (i + 1) sr.1 rest
    (r2.1, node_id :: r2.2)

lemma _serialize_metadata_h_frame (h : Heap) (r r2 : Nat) (hr : r2 < h.dicts.length) :
    (_serialize_metadata_h h r).1.getRef r2 = h.getRef r2 ∧
    h.dicts.length ≤ (_serialize_metadata_h h r).1.dicts.length := by
  simp only [_serialize_metadata_h]
  cases hl : assocLookup (h.getRef r) "links" with
  | none => exact ⟨rfl, Nat.le_refl _⟩
  | some v =>
    cases v with
    | js j => exact ⟨rfl, Nat.le_refl _⟩
    | pyset xs =>
      simp only [Heap.alloc, Heap.setKey, Heap.getRef]
      constructor
      · have hne : h.dicts.length ≠ r2 := by omega
        rw [List.getElem?_set_ne hne]
        rw [List.getElem?_append, if_pos hr]
      · simp

lemma add_nodes_h_frame (fresh : Nat → String) :
    ∀ (ns : List NodeRef) (i : Nat) (h : Heap) (r : Nat), r < h.dicts.length →
      (add_nodes_h fresh i h ns).1.getRef r = h.getRef r ∧
      h.dicts.length ≤ (add_nodes_h fresh i h ns).1.dicts.length := by
  intro ns
  induction ns with
  | nil => intro i h r _; exact ⟨rfl, Nat.le_refl _⟩
  | cons n rest ih =>
    intro i h r hr
    have hser := _serialize_metadata_h_frame h n.metaRef r hr
    have hr2 : r < (_serialize_metadata_h h n.metaRef).1.dicts.length := by omega
    have hrec := ih (i + 1) (_serialize_metadata_h h n.metaRef).1 r hr2
    simp only [add_nodes_h]
    exact ⟨hrec.1.trans hser.1, le_trans hser.2 hrec.2⟩

lemma add_nodes_h_ids (fresh : Nat → String) :
    ∀ (ns : List NodeRef) (i : Nat) (h : Heap) (j : Nat),
      (add_nodes_h fresh i h ns).2[j]? = ns[j]?.map (materializeIdRef fresh (i + j)) := by
  intro ns
  induction ns with
  | nil => intro i h j; simp [add_nodes_h]
  | cons n rest ih =>
    intro i h j
    cases j with
    | zero => simp [add_nodes_h]
    | succ j =>
      simp only [add_nodes_h, List.getElem?_cons_succ]
      rw [ih (i + 1) _ j]
      have : i + 1 + j = i + (j + 1) := by omega
      rw [this]

lemma add_nodes_h_ids_length (fresh : Nat → String) :
    ∀ (ns : List NodeRef) (i : Nat) (h : Heap),
      (add_nodes_h fresh i h ns).2.length = ns.length := by
  intro ns
  induction ns with
  | nil => intro i h; rfl
  | cons n rest ih =>
    intro i h
    simp only [add_nodes_h, List.length_cons]
    rw [ih]

/-- C9: `add_nodes` never mutates its input nodes: every metadata dict the
caller can see is unchanged after the call — even when it holds a set
under the key "links", because the set-to-list coercion operates on a
copy — and an autogenerated id is returned in the result list (one id per
node, in order) rather than assigned back to the node, whose fields the
loop only reads. -/
theorem claim_C9_no_mutation (fresh : Nat → String) (ns : List NodeRef) (i : Nat) (h : Heap)
    (hval : ∀ n ∈ ns, n.metaRef < h.dicts.length) :
    (∀ n ∈ ns, (add_nodes_h fresh i h ns).1.getRef n.metaRef = h.getRef n.metaRef) ∧
    (add_nodes_h fresh i h ns).2.length = ns.length ∧
    (∀ (j : Nat) (n : NodeRef), ns[j]? = some n →
      (add_nodes_h fresh i h ns).2[j]? = some (materializeIdRef fresh (i + j) n)) := by
  refine ⟨?_, add_nodes_h_ids_length fresh ns i h, ?_⟩
  · intro n hn
    exact (add_nodes_h_frame fresh ns i h n.metaRef (hval n hn)).1
  · intro j n hj
    rw [add_nodes_h_ids, hj]
    rfl

def wHeap : Heap :=
  { dicts := [sampleMeta] }

def wNodeRef : NodeRef :=
  { text := "beta", id := none, metaRef := 0, links := [] }

theorem claim_C9_no_mutation_witness :
    ((add_nodes_h sampleFresh 0 wHeap [wNodeRef]).1.getRef 0 = wHeap.getRef 0) ∧
    (add_nodes_h sampleFresh 0 wHeap [wNodeRef]).2 = ["generated"] := by
  have h := claim_C9_no_mutation sampleFresh [wNodeRef] 0 wHeap
    (by
      intro n hn
      rcases List.mem_singleton.mp hn with rfl
      decide)
  exact ⟨h.1 wNodeRef (List.mem_singleton.mpr rfl), rfl⟩

end GraphStore
